import Mathlib

/-!
Shallow embedding of the note state engine of the personal notes
organizer (source: src/notes_frontend/src/routes/+page.ts), together
with theorems settling the specification claims about it.

Modelling conventions:
- JS strings are lists of characters (`Str`); timestamps are naturals.
- The host primitives are parameters: `crypto.randomUUID()` and
  `Date.now()` become explicit arguments, `JSON.stringify` becomes a
  function `stringify : List Note → Str`, `JSON.parse` becomes
  `parse : Str → Option JsValue` (`none` = the call would throw, hence
  be caught), and `Intl.Collator(...).compare` becomes
  `collator : Str → Str → Int`.
- The host key-value store is a single cell `storage : Option Str`
  plus a counter of `setItem` calls, carried inside `AppState`.
- All functions are modelled in the in-browser case (`browser = true`);
  the server-side rendering guards (`if (!browser) ...`) are outside
  the claims under scrutiny.
-/

namespace NotesApp

/-- JS strings, modelled as lists of characters. -/
abbrev Str := List Char

/-- The `Note` record (+page.ts lines 11-19).  The optional fields
`pinned` and `color` always carry a value on notes produced by the
store (`createNote` initialises both), so they are modelled as `Bool`
and `Option Str` ("absent" coincides with `null`). -/
structure Note where
  id : Str
  title : Str
  content : Str
  createdAt : Nat
  updatedAt : Nat
  pinned : Bool
  color : Option Str
  deriving Repr, DecidableEq

/-- The result of a successful `JSON.parse`, to the extent `loadNotes`
inspects it: an array (of notes) or any other JSON value. -/
inductive JsValue where
  | arr (ns : List Note)
  | other
  deriving Repr, DecidableEq

/-- The application state: in-memory collection, selection, and the
host storage cell (raw stored value plus a count of `setItem` calls). -/
structure AppState where
  notes : List Note
  selectedId : Option Str
  storage : Option Str
  writes : Nat
  deriving Repr, DecidableEq

/-- `loadNotes` (+page.ts 24-34), browser case.  `parse` models
`JSON.parse`, returning `none` where the real call would throw (the
exception is caught); the falsy check on the raw value and the
non-array check both also yield the empty collection. -/
def loadNotes (parse : Str → Option JsValue) (raw : Option Str) : List Note :=
  match raw with
  | none => []
  | some s =>
    if s.isEmpty then []
    else
      match parse s with
      | none => []
      | some (JsValue.arr ns) => ns
      | some JsValue.other => []

/-- `saveNotes` (+page.ts 36-39): a single `setItem` call storing the
serialised collection. -/
def saveNotes (stringify : List Note → Str) (ns : List Note) (st : AppState) : AppState :=
  { st with storage := some (stringify ns), writes := st.writes + 1 }

/-- The initial application state (+page.ts 42-49): the collection is
loaded from storage and the first note, when present, is selected.
The reactive persistence statement on line 49 runs once at startup and
stores the just-loaded collection. -/
def initialState (stringify : List Note → Str) (parse : Str → Option JsValue)
    (raw : Option Str) : AppState :=
  let ns := loadNotes parse raw
  saveNotes stringify ns
    { notes := ns, selectedId := ns.head?.map Note.id, storage := raw, writes := 0 }

/-- `createNote` (+page.ts 51-65); `newId` stands for the
`crypto.randomUUID()` result and `now` for `Date.now()`. -/
def createNote (stringify : List Note → Str) (newId : Str) (now : Nat)
    (s : AppState) : AppState :=
  let note : Note :=
    { id := newId, title := "Untitled".data, content := [],
      createdAt := now, updatedAt := now, pinned := false, color := none }
  let s' := { s with notes := note :: s.notes, selectedId := some newId }
  saveNotes stringify s'.notes s'

/-- A `Partial<Note>` argument: any subset of the `Note` fields. -/
structure NotePatch where
  id : Option Str
  title : Option Str
  content : Option Str
  createdAt : Option Nat
  updatedAt : Option Nat
  pinned : Option Bool
  color : Option (Option Str)
  deriving Repr, DecidableEq

/-- The `Partial<Note>` supplying no field at all. -/
def emptyPatch : NotePatch :=
  { id := none, title := none, content := none, createdAt := none,
    updatedAt := none, pinned := none, color := none }

/-- The spread `{ ...n, ...partial, updatedAt: Date.now() }` performed
by `updateSelected` (+page.ts 69): every field supplied by the patch
overrides the note's field, after which `updatedAt` is set to `now`
regardless of the patch. -/
def applyPatch (n : Note) (p : NotePatch) (now : Nat) : Note :=
  { id := p.id.getD n.id
    title := p.title.getD n.title
    content := p.content.getD n.content
    createdAt := p.createdAt.getD n.createdAt
    updatedAt := now
    pinned := p.pinned.getD n.pinned
    color := p.color.getD n.color }

/-- `updateSelected` (+page.ts 67-71): a no-op when `selectedId` is
falsy (`null` or the empty string); otherwise rewrites the matching
note and persists. -/
def updateSelected (stringify : List Note → Str) (p : NotePatch) (now : Nat)
    (s : AppState) : AppState :=
  match s.selectedId with
  | none => s
  | some i =>
    if i.isEmpty then s
    else
      let ns := s.notes.map fun n => if n.id = i then applyPatch n p now else n
      saveNotes stringify ns { s with notes := ns }

/-- `Array.prototype.findIndex`, with the -1 result modelled as
`none`. -/
def findIndex (p : Note → Bool) : List Note → Option Nat
  | [] => none
  | n :: ns => if p n then some 0 else (findIndex p ns).map (· + 1)

/-- `deleteSelected` (+page.ts 73-82).  In JS, `notes[idx - 1]` with
`idx = 0` reads `notes[-1] = undefined`, hence the explicit `idx = 0`
guard on the fallback candidate. -/
def deleteSelected (stringify : List Note → Str) (s : AppState) : AppState :=
  match s.selectedId with
  | none => s
  | some i =>
    if i.isEmpty then s
    else
      match findIndex (fun n => n.id = i) s.notes with
      | none => s
      | some idx =>
        let ns := s.notes.eraseIdx idx
        let newSel :=
          Option.or (ns[idx]?.map Note.id)
            ((if idx = 0 then none else ns[idx - 1]?).map Note.id)
        saveNotes stringify ns { s with notes := ns, selectedId := newSel }

/-- `selectNote` (+page.ts 84-86): unconditional, no persistence. -/
def selectNote (i : Str) (s : AppState) : AppState :=
  { s with selectedId := some i }

/-- `togglePin` (+page.ts 88-93): the target is `id ?? selectedId`
(nullish coalescing), then the falsy guard applies to the target. -/
def togglePin (stringify : List Note → Str) (idArg : Option Str) (now : Nat)
    (s : AppState) : AppState :=
  let target := match idArg with
    | some j => some j
    | none => s.selectedId
  match target with
  | none => s
  | some i =>
    if i.isEmpty then s
    else
      let ns := s.notes.map fun n =>
        if n.id = i then { n with pinned := !n.pinned, updatedAt := now } else n
      saveNotes stringify ns { s with notes := ns }

/-- `setColor` (+page.ts 95-99). -/
def setColor (stringify : List Note → Str) (c : Option Str) (now : Nat)
    (s : AppState) : AppState :=
  match s.selectedId with
  | none => s
  | some i =>
    if i.isEmpty then s
    else
      let ns := s.notes.map fun n =>
        if n.id = i then { n with color := c, updatedAt := now } else n
      saveNotes stringify ns { s with notes := ns }

/-- `String.prototype.toLowerCase`. -/
def jsToLower (s : Str) : Str := s.map Char.toLower

/-- `String.prototype.trim`: whitespace removed from both ends. -/
def jsTrim (s : Str) : Str :=
  (((s.dropWhile Char.isWhitespace).reverse).dropWhile Char.isWhitespace).reverse

/-- `normalize` (+page.ts 102-104): lower-case, then trim. -/
def normalize (s : Str) : Str := jsTrim (jsToLower s)

/-- `String.prototype.includes`: substring occurrence. -/
def includes (hay w : Str) : Bool := decide (w <:+: hay)

/-- `matches` (+page.ts 105-111). -/
def matchesNote (n : Note) (q : Str) : Bool :=
  if q.isEmpty then true
  else
    let t := normalize n.title
    let c := normalize n.content
    let qq := normalize q
    includes t qq || includes c qq

/-- The three sort modes (+page.ts 45). -/
inductive SortBy where
  | updated
  | created
  | alpha
  deriving Repr, DecidableEq

/-- `Number(pinned)` on the modelled `pinned : Bool` field. -/
def jsNum (b : Bool) : Int := if b then 1 else 0

/-- The comparator chains `x || y` of +page.ts 117-121: a primary key
(pinned, descending) and, on primary ties (`0` is falsy), the mode's
tie-break; `collator` models `Intl.Collator(...).compare`. -/
def noteCmp (collator : Str → Str → Int) (sb : SortBy) (a b : Note) : Int :=
  match sb with
  | .updated =>
    let p := jsNum b.pinned - jsNum a.pinned
    if p ≠ 0 then p else (b.updatedAt : Int) - (a.updatedAt : Int)
  | .created =>
    let p := jsNum b.pinned - jsNum a.pinned
    if p ≠ 0 then p else (b.createdAt : Int) - (a.createdAt : Int)
  | .alpha =>
    let p := jsNum b.pinned - jsNum a.pinned
    if p ≠ 0 then p else collator a.title b.title

/-- Stable insertion of one element: `x` goes in front of the first
element it is `le`-compatible with. -/
def insertNote (le : Note → Note → Bool) (x : Note) : List Note → List Note
  | [] => [x]
  | y :: ys => if le x y then x :: y :: ys else y :: insertNote le x ys

/-- A stable comparator sort, modelling `Array.prototype.sort`
(required stable by the language specification). -/
def sortNotes (le : Note → Note → Bool) : List Note → List Note
  | [] => []
  | x :: xs => insertNote le x (sortNotes le xs)

/-- `sorted` (+page.ts 113-124): a stable sort of a copy of the list
by the mode's comparator, an element preceding another when the
comparator is non-positive on the pair. -/
def sorted (collator : Str → Str → Int) (sb : SortBy) (list : List Note) : List Note :=
  sortNotes (fun a b => decide (noteCmp collator sb a b ≤ 0)) list

/-- The derived view `filtered` (+page.ts 126): filter by query and by
the pinned-only toggle, then sort. -/
def filteredView (collator : Str → Str → Int) (sb : SortBy) (q : Str)
    (pinnedOnly : Bool) (ns : List Note) : List Note :=
  sorted collator sb (ns.filter fun n => matchesNote n q && (!pinnedOnly || n.pinned))

/-- The store operations triggerable from the UI, with the host inputs
(fresh UUID, current time) recorded in the operation. -/
inductive Op where
  | create (newId : Str) (now : Nat)
  | update (p : NotePatch) (now : Nat)
  | deleteSel
  | togglePin (idArg : Option Str) (now : Nat)
  | setColor (c : Option Str) (now : Nat)
  | select (i : Str)
  deriving Repr

/-- One operation applied to the state. -/
def step (stringify : List Note → Str) : Op → AppState → AppState
  | .create newId now, s => createNote stringify newId now s
  | .update p now, s => updateSelected stringify p now s
  | .deleteSel, s => deleteSelected stringify s
  | .togglePin idArg now, s => togglePin stringify idArg now s
  | .setColor c now, s => setColor stringify c now s
  | .select i, s => selectNote i s

/-- A sequence of operations applied in order. -/
def run (stringify : List Note → Str) (ops : List Op) (s : AppState) : AppState :=
  ops.foldl (fun t op => step stringify op t) s

/-- A trivial serialiser, used to instantiate host parameters on
concrete runs. -/
def stringify0 : List Note → Str := fun _ => ['x']

/-- A parser that always fails, used on concrete runs. -/
def parse0 : Str → Option JsValue := fun _ => none

/-- An empty concrete state, used on concrete runs. -/
def demoState : AppState :=
  { notes := [], selectedId := none, storage := none, writes := 0 }

/-- A small concrete note with the given id character. -/
def mkNote (c : Char) : Note :=
  { id := [c], title := [], content := [], createdAt := 0, updatedAt := 0,
    pinned := false, color := none }

/-- A concrete state whose selection dangles, used on concrete runs. -/
def dangleState : AppState :=
  { notes := [mkNote 'a'], selectedId := some ['z'], storage := none, writes := 0 }

/-- A concrete one-note state with that note selected. -/
def selState : AppState :=
  { notes := [mkNote 'a'], selectedId := some ['a'], storage := none, writes := 0 }

/-- A patch supplying only a title. -/
def patchT : NotePatch := { emptyPatch with title := some ['t'] }

/-- A patch supplying `id` and `createdAt`, fields the specification
regards as immutable. -/
def patchBad : NotePatch := { emptyPatch with id := some ['z'], createdAt := some 999 }

/-- The selection invariant: a non-null selection refers to an id
present in the collection. -/
def SelOk (s : AppState) : Prop :=
  ∀ i, s.selectedId = some i → i ∈ s.notes.map Note.id

/-- Operations as the UI issues them: `select` only targets ids of
notes present in the collection, and `update` patches never supply an
id (the editor only sends title/content). -/
def stepOk (s : AppState) : Op → Prop
  | .update p _ => p.id = none
  | .select i => i ∈ s.notes.map Note.id
  | _ => True

/-- A run of operations each of which is UI-issuable in the state it
encounters. -/
inductive RunOk (stringify : List Note → Str) : AppState → List Op → Prop
  | nil (s : AppState) : RunOk stringify s []
  | cons {s : AppState} {op : Op} {ops : List Op} :
      stepOk s op → RunOk stringify (step stringify op s) ops →
      RunOk stringify s (op :: ops)

/-- The create/update/delete subset of the operations. -/
def isCUD : Op → Bool
  | .create _ _ => true
  | .update _ _ => true
  | .deleteSel => true
  | _ => false

/-- The persistence invariant: the storage cell holds the
serialisation of the in-memory collection. -/
def Persisted (stringify : List Note → Str) (s : AppState) : Prop :=
  s.storage = some (stringify s.notes)

/-- Pinned notes precede unpinned ones. -/
def PinFirst (l : List Note) : Prop :=
  l.Pairwise fun a b => b.pinned = true → a.pinned = true

/-- A trivial collator, used on concrete runs. -/
def collatorTrivial : Str → Str → Int := fun _ _ => 0

/-- An unpinned note updated at time 100. -/
def noteU100 : Note :=
  { id := ['u'], title := [], content := [], createdAt := 0, updatedAt := 100,
    pinned := false, color := none }

/-- A pinned note updated at time 50. -/
def noteP50 : Note :=
  { id := ['p'], title := [], content := [], createdAt := 0, updatedAt := 50,
    pinned := true, color := none }

/-- A pinned note updated at time 49. -/
def noteP49 : Note :=
  { id := ['q'], title := [], content := [], createdAt := 0, updatedAt := 49,
    pinned := true, color := none }

/-- A concrete mixed list for sort runs. -/
def demoSortList : List Note := [noteU100, noteP50, noteP49]

/-- The note `createNote` produces from id 'a' at time 5. -/
def createdNoteA : Note :=
  { id := ['a'], title := "Untitled".data, content := [], createdAt := 5,
    updatedAt := 5, pinned := false, color := none }

/-- A parser whose answer is always the one-note array [createdNoteA],
used on concrete runs. -/
def parseA : Str → Option JsValue := fun _ => some (JsValue.arr [createdNoteA])

/-- A concrete two-operation run: create a note, then select it. -/
def demoOps : List Op := [Op.create ['a'] 0, Op.select ['a']]

/-! ## Helper lemmas -/

/-- A conditional rewrite whose condition matches no note of the list
leaves the list unchanged. -/
theorem map_if_id_eq_of_absent (f : Note → Note) (i : Str) (l : List Note)
    (h : ∀ n ∈ l, n.id ≠ i) :
    (l.map fun n => if n.id = i then f n else n) = l := by
  have h1 : (l.map fun n => if n.id = i then f n else n) = l.map id :=
    List.map_congr_left (fun n hn => by simp [h n hn])
  rw [h1, List.map_id]

/-- `findIndex` misses when no note of the list has the id. -/
theorem findIndex_eq_none_of_absent (i : Str) (l : List Note)
    (h : ∀ n ∈ l, n.id ≠ i) :
    findIndex (fun n => n.id = i) l = none := by
  induction l with
  | nil => rfl
  | cons x xs ih =>
    have hx : x.id ≠ i := h x (List.mem_cons_self x xs)
    simp only [findIndex]
    rw [if_neg (by simp [hx]), ih (fun n hn => h n (List.mem_cons_of_mem x hn))]
    rfl

/-- `findIndex` returns the index of the first note carrying the id. -/
theorem findIndex_eq_of_first (i : Str) (l : List Note) (idx : Nat) (n0 : Note)
    (hget : l[idx]? = some n0) (hid : n0.id = i)
    (hfirst : ∀ j, j < idx → ∀ m, l[j]? = some m → m.id ≠ i) :
    findIndex (fun n => n.id = i) l = some idx := by
  induction l generalizing idx with
  | nil => simp at hget
  | cons x xs ih =>
    cases idx with
    | zero =>
      rw [List.getElem?_cons_zero] at hget
      cases hget
      simp [findIndex, hid]
    | succ k =>
      rw [List.getElem?_cons_succ] at hget
      have hx : x.id ≠ i := by
        have := hfirst 0 (Nat.succ_pos k) x List.getElem?_cons_zero
        exact this
      have hrest : ∀ j, j < k → ∀ m, xs[j]? = some m → m.id ≠ i := by
        intro j hj m hm
        exact hfirst (j + 1) (Nat.succ_lt_succ hj) m (by rw [List.getElem?_cons_succ]; exact hm)
      simp only [findIndex]
      rw [if_neg (by simp [hx]), ih k hget hrest]
      rfl

/-- With pairwise distinct ids, notes at distinct positions have
distinct ids. -/
theorem ids_distinct_of_nodup (l : List Note) (idx j : Nat) (n0 m : Note)
    (hnd : (l.map Note.id).Nodup) (hget : l[idx]? = some n0)
    (hj : l[j]? = some m) (hne : j ≠ idx) : m.id ≠ n0.id := by
  intro he
  have h1 : (l.map Note.id)[j]? = some m.id := by
    rw [List.getElem?_map, hj]; rfl
  have h2 : (l.map Note.id)[idx]? = some n0.id := by
    rw [List.getElem?_map, hget]; rfl
  have hjlen : j < (l.map Note.id).length := by
    rcases List.getElem?_eq_some_iff.mp h1 with ⟨hh, _⟩
    exact hh
  have : j = idx := by
    apply List.getElem?_inj hjlen hnd
    rw [h1, h2, he]
  exact hne this

/-! ## Claim theorems -/

/-- Claim C1 counterexample: the claim asserts the fresh note's title
is the empty string, but `createNote` titles the fresh note
"Untitled". -/
theorem createNote_title_claim_false :
    ¬ ((createNote stringify0 ['a'] 0 demoState).notes.map Note.title
        = [([] : Str)]) := by
  decide

/-- Claim C1 (amended): `createNote` prepends to the collection a
fresh note whose title is "Untitled" and whose content is the empty
string, with `pinned = false`, `color = null` and
`createdAt = updatedAt = now`; the collection is persisted and the new
note's id becomes the selection. -/
theorem createNote_spec (stringify : List Note → Str) (newId : Str) (now : Nat)
    (s : AppState) :
    (createNote stringify newId now s).notes =
      { id := newId, title := "Untitled".data, content := [], createdAt := now,
        updatedAt := now, pinned := false, color := none } :: s.notes ∧
    (createNote stringify newId now s).selectedId = some newId ∧
    (createNote stringify newId now s).storage =
      some (stringify ((createNote stringify newId now s).notes)) :=
  ⟨rfl, rfl, rfl⟩

/-- Claim C2: deleting the selected note (present at index `idx`, ids
pairwise distinct) removes exactly that note, and the new selection is
the note now occupying `idx` when one exists, else the note at
`idx - 1` when one exists, else null. -/
theorem deleteSelected_spec (stringify : List Note → Str) (s : AppState)
    (i : Str) (idx : Nat) (n0 : Note)
    (hsel : s.selectedId = some i) (hne : i ≠ [])
    (hget : s.notes[idx]? = some n0) (hid : n0.id = i)
    (hnd : (s.notes.map Note.id).Nodup) :
    (deleteSelected stringify s).notes = s.notes.eraseIdx idx ∧
    (deleteSelected stringify s).selectedId =
      Option.or ((s.notes.eraseIdx idx)[idx]?.map Note.id)
        ((if idx = 0 then none else (s.notes.eraseIdx idx)[idx - 1]?).map Note.id) := by
  have hfirst : ∀ j, j < idx → ∀ m, s.notes[j]? = some m → m.id ≠ i := by
    intro j hj m hm
    rw [← hid]
    exact ids_distinct_of_nodup s.notes idx j n0 m hnd hget hm (Nat.ne_of_lt hj)
  have hfi : findIndex (fun n => n.id = i) s.notes = some idx :=
    findIndex_eq_of_first i s.notes idx n0 hget hid hfirst
  have hie : i.isEmpty = false := List.isEmpty_eq_false.mpr hne
  simp [deleteSelected, hsel, hie, hfi, saveNotes]

/-- Claim C2 witness: on the collection [a, b, c] with b selected,
deletion keeps [a, c] and selects c; the theorem is applied at that
concrete state. -/
theorem deleteSelected_spec_witness :
    (deleteSelected stringify0
      { notes := [mkNote 'a', mkNote 'b', mkNote 'c'], selectedId := some ['b'],
        storage := none, writes := 0 }).notes
      = [mkNote 'a', mkNote 'b', mkNote 'c'].eraseIdx 1 ∧
    (deleteSelected stringify0
      { notes := [mkNote 'a', mkNote 'b', mkNote 'c'], selectedId := some ['b'],
        storage := none, writes := 0 }).selectedId
      = Option.or ((([mkNote 'a', mkNote 'b', mkNote 'c'].eraseIdx 1)[1]?).map Note.id)
          ((if 1 = 0 then none else ([mkNote 'a', mkNote 'b', mkNote 'c'].eraseIdx 1)[0]?).map Note.id) :=
  deleteSelected_spec stringify0
    { notes := [mkNote 'a', mkNote 'b', mkNote 'c'], selectedId := some ['b'],
      storage := none, writes := 0 }
    ['b'] 1 (mkNote 'b') rfl (by decide) (by decide) (by decide) (by decide)

/-- Claim C7: loading yields the empty collection when the stored
value is absent, fails to parse, or parses to a non-array (the model
of `loadNotes` is a total function, so no exception reaches the
caller), and an empty loaded collection gives a null initial
selection. -/
theorem loadNotes_guards :
    (∀ parse : Str → Option JsValue, loadNotes parse none = []) ∧
    (∀ (parse : Str → Option JsValue) (s : Str), parse s = none →
      loadNotes parse (some s) = []) ∧
    (∀ (parse : Str → Option JsValue) (s : Str), parse s = some JsValue.other →
      loadNotes parse (some s) = []) ∧
    (∀ (stringify : List Note → Str) (parse : Str → Option JsValue)
      (raw : Option Str), loadNotes parse raw = [] →
      (initialState stringify parse raw).selectedId = none) := by
  refine ⟨fun _ => rfl, ?_, ?_, ?_⟩
  · intro parse s h
    by_cases he : s.isEmpty <;> simp [loadNotes, he, h]
  · intro parse s h
    by_cases he : s.isEmpty <;> simp [loadNotes, he, h]
  · intro stringify parse raw h
    simp [initialState, saveNotes, h]

/-- Claim C7 witness: the guard theorems applied to a concrete
unparseable raw value. -/
theorem loadNotes_guards_witness :
    loadNotes parse0 (some ['x']) = [] ∧
    (initialState stringify0 parse0 (some ['x'])).selectedId = none :=
  ⟨loadNotes_guards.2.1 parse0 ['x'] rfl,
   loadNotes_guards.2.2.2 stringify0 parse0 (some ['x'])
     (loadNotes_guards.2.1 parse0 ['x'] rfl)⟩

/-- Claim C9: with the selection pointing at an id absent from the
collection (and an explicit absent id for `togglePin`), each of
`updateSelected`, `deleteSelected`, `setColor` and `togglePin` leaves
the collection and the selection exactly as they were. -/
theorem absent_id_noop (stringify : List Note → Str) (p : NotePatch)
    (c : Option Str) (now : Nat) (s : AppState) (i j : Str)
    (hsel : s.selectedId = some i)
    (habs : ∀ n ∈ s.notes, n.id ≠ i)
    (habsj : ∀ n ∈ s.notes, n.id ≠ j) :
    ((updateSelected stringify p now s).notes = s.notes ∧
      (updateSelected stringify p now s).selectedId = s.selectedId) ∧
    deleteSelected stringify s = s ∧
    ((setColor stringify c now s).notes = s.notes ∧
      (setColor stringify c now s).selectedId = s.selectedId) ∧
    ((togglePin stringify (some j) now s).notes = s.notes ∧
      (togglePin stringify (some j) now s).selectedId = s.selectedId) := by
  have hmap : ∀ f : Note → Note,
      (s.notes.map fun n => if n.id = i then f n else n) = s.notes :=
    fun f => map_if_id_eq_of_absent f i s.notes habs
  have hmapj : ∀ f : Note → Note,
      (s.notes.map fun n => if n.id = j then f n else n) = s.notes :=
    fun f => map_if_id_eq_of_absent f j s.notes habsj
  have hfi : findIndex (fun n => n.id = i) s.notes = none :=
    findIndex_eq_none_of_absent i s.notes habs
  refine ⟨?_, ?_, ?_, ?_⟩
  · by_cases he : i.isEmpty <;>
      simp [updateSelected, hsel, he, saveNotes, hmap]
  · by_cases he : i.isEmpty <;>
      simp [deleteSelected, hsel, he, hfi]
  · by_cases he : i.isEmpty <;>
      simp [setColor, hsel, he, saveNotes, hmap]
  · by_cases he : j.isEmpty <;>
      simp [togglePin, he, saveNotes, hmapj]

/-- Claim C9 witness: the no-op theorem applied to a concrete state
whose selection dangles. -/
theorem absent_id_noop_witness :
    ((updateSelected stringify0 emptyPatch 7 dangleState).notes = [mkNote 'a'] ∧
     (updateSelected stringify0 emptyPatch 7 dangleState).selectedId = some ['z']) ∧
    deleteSelected stringify0 dangleState = dangleState := by
  have h := absent_id_noop stringify0 emptyPatch none 7 dangleState ['z'] ['w']
    rfl (by decide) (by decide)
  exact ⟨⟨h.1.1, by rw [h.1.2]; rfl⟩, h.2.1⟩

/-- Claim C10: when the selection is null, `updateSelected`,
`deleteSelected`, `setColor`, and `togglePin` without an id argument
return the state unchanged — in particular the storage cell and the
count of storage writes are untouched. -/
theorem no_selection_noop (stringify : List Note → Str) (p : NotePatch)
    (c : Option Str) (now : Nat) (s : AppState) (h : s.selectedId = none) :
    updateSelected stringify p now s = s ∧
    deleteSelected stringify s = s ∧
    setColor stringify c now s = s ∧
    togglePin stringify none now s = s := by
  refine ⟨?_, ?_, ?_, ?_⟩ <;>
    simp [updateSelected, deleteSelected, setColor, togglePin, h]

/-- Mapping a function that preserves ids preserves the id list. -/
theorem ids_map_preserved (f : Note → Note) (l : List Note)
    (hf : ∀ n, (f n).id = n.id) :
    (l.map f).map Note.id = l.map Note.id := by
  rw [List.map_map]
  exact List.map_congr_left fun n _ => hf n

/-- The selection invariant transfers along equal ids and equal
selection. -/
theorem SelOk_of_same (s t : AppState) (hs : SelOk s)
    (hn : t.notes.map Note.id = s.notes.map Note.id)
    (hsel : t.selectedId = s.selectedId) : SelOk t := by
  intro i hi
  rw [hn]
  exact hs i (by rw [← hsel]; exact hi)

/-- Every UI-issuable operation preserves the selection invariant. -/
theorem step_preserves_SelOk (stringify : List Note → Str) (s : AppState)
    (op : Op) (hs : SelOk s) (hop : stepOk s op) :
    SelOk (step stringify op s) := by
  cases op with
  | create newId now =>
    intro i hi
    have hin : newId = i := by simpa [step, createNote, saveNotes] using hi
    subst hin
    simp [step, createNote, saveNotes]
  | update p now =>
    cases hsel : s.selectedId with
    | none =>
      exact SelOk_of_same s _ hs (by simp [step, updateSelected, hsel])
        (by simp [step, updateSelected, hsel])
    | some i0 =>
      cases hie : i0.isEmpty with
      | true =>
        exact SelOk_of_same s _ hs (by simp [step, updateSelected, hsel, hie])
          (by simp [step, updateSelected, hsel, hie])
      | false =>
        refine SelOk_of_same s _ hs ?_ (by simp [step, updateSelected, hsel, hie, saveNotes])
        have hpid : p.id = none := hop
        have hid : ∀ n : Note,
            ((fun n => if n.id = i0 then applyPatch n p now else n) n).id = n.id := by
          intro n
          by_cases h : n.id = i0 <;> simp [applyPatch, hpid, h]
        simpa [step, updateSelected, hsel, hie, saveNotes] using
          ids_map_preserved _ s.notes hid
  | deleteSel =>
    cases hsel : s.selectedId with
    | none =>
      exact SelOk_of_same s _ hs (by simp [step, deleteSelected, hsel])
        (by simp [step, deleteSelected, hsel])
    | some i0 =>
      cases hie : i0.isEmpty with
      | true =>
        exact SelOk_of_same s _ hs (by simp [step, deleteSelected, hsel, hie])
          (by simp [step, deleteSelected, hsel, hie])
      | false =>
        cases hfi : findIndex (fun n => n.id = i0) s.notes with
        | none =>
          exact SelOk_of_same s _ hs (by simp [step, deleteSelected, hsel, hie, hfi])
            (by simp [step, deleteSelected, hsel, hie, hfi])
        | some idx =>
          intro i hi
          simp only [step, deleteSelected, hsel, hie, hfi, saveNotes] at hi ⊢
          cases h1 : (s.notes.eraseIdx idx)[idx]? with
          | some m =>
            rw [h1] at hi
            have hi' : some m.id = some i := hi
            cases hi'
            exact List.mem_map.mpr ⟨m, List.getElem?_mem h1, rfl⟩
          | none =>
            rw [h1] at hi
            have hi' : (if idx = 0 then none
                else (s.notes.eraseIdx idx)[idx - 1]?).map Note.id = some i := hi
            by_cases h0 : idx = 0
            · rw [if_pos h0] at hi'
              simp at hi'
            · rw [if_neg h0] at hi'
              cases h2 : (s.notes.eraseIdx idx)[idx - 1]? with
              | some m =>
                rw [h2] at hi'
                have hi'' : some m.id = some i := hi'
                cases hi''
                exact List.mem_map.mpr ⟨m, List.getElem?_mem h2, rfl⟩
              | none =>
                rw [h2] at hi'
                simp at hi'
  | togglePin idArg now =>
    have htgt : ∀ (i0 : Str), i0.isEmpty = false →
        ∀ t, t = (s.notes.map fun n =>
          if n.id = i0 then { n with pinned := !n.pinned, updatedAt := now } else n) →
        t.map Note.id = s.notes.map Note.id := by
      intro i0 _ t ht
      subst ht
      exact ids_map_preserved _ s.notes fun n => by
        by_cases h : n.id = i0 <;> simp [h]
    cases idArg with
    | some j =>
      cases hie : j.isEmpty with
      | true =>
        exact SelOk_of_same s _ hs (by simp [step, togglePin, hie])
          (by simp [step, togglePin, hie])
      | false =>
        refine SelOk_of_same s _ hs ?_ (by simp [step, togglePin, hie, saveNotes])
        simpa [step, togglePin, hie, saveNotes] using htgt j hie _ rfl
    | none =>
      cases hsel : s.selectedId with
      | none =>
        exact SelOk_of_same s _ hs (by simp [step, togglePin, hsel])
          (by simp [step, togglePin, hsel])
      | some i0 =>
        cases hie : i0.isEmpty with
        | true =>
          exact SelOk_of_same s _ hs (by simp [step, togglePin, hsel, hie])
            (by simp [step, togglePin, hsel, hie])
        | false =>
          refine SelOk_of_same s _ hs ?_ (by simp [step, togglePin, hsel, hie, saveNotes])
          simpa [step, togglePin, hsel, hie, saveNotes] using htgt i0 hie _ rfl
  | setColor c now =>
    cases hsel : s.selectedId with
    | none =>
      exact SelOk_of_same s _ hs (by simp [step, setColor, hsel])
        (by simp [step, setColor, hsel])
    | some i0 =>
      cases hie : i0.isEmpty with
      | true =>
        exact SelOk_of_same s _ hs (by simp [step, setColor, hsel, hie])
          (by simp [step, setColor, hsel, hie])
      | false =>
        refine SelOk_of_same s _ hs ?_ (by simp [step, setColor, hsel, hie, saveNotes])
        have hid : ∀ n : Note,
            ((fun n => if n.id = i0 then { n with color := c, updatedAt := now } else n) n).id
              = n.id := by
          intro n
          by_cases h : n.id = i0 <;> simp [h]
        simpa [step, setColor, hsel, hie, saveNotes] using
          ids_map_preserved _ s.notes hid
  | select i =>
    intro i' hi'
    have hii : i = i' := by simpa [step, selectNote] using hi'
    subst hii
    exact hop

/-- The selection invariant is preserved along any UI-issuable run. -/
theorem run_preserves_SelOk (stringify : List Note → Str) :
    ∀ (ops : List Op) (s : AppState), SelOk s → RunOk stringify s ops →
      SelOk (run stringify ops s) := by
  intro ops
  induction ops with
  | nil => intro s hs _; exact hs
  | cons op ops ih =>
    intro s hs hok
    cases hok with
    | cons hop hrest =>
      exact ih (step stringify op s) (step_preserves_SelOk stringify s op hs hop) hrest

/-- The loaded initial state satisfies the selection invariant. -/
theorem initialState_SelOk (stringify : List Note → Str)
    (parse : Str → Option JsValue) (raw : Option Str) :
    SelOk (initialState stringify parse raw) := by
  intro i hi
  simp only [initialState, saveNotes] at hi ⊢
  cases hh : (loadNotes parse raw).head? with
  | none => rw [hh] at hi; simp at hi
  | some n =>
    rw [hh] at hi
    have hi' : n.id = i := Option.some.inj hi
    rcases List.head?_eq_some_iff.mp hh with ⟨ys, hys⟩
    rw [hys, List.map_cons, ← hi']
    exact List.mem_cons_self _ _

/-- Claim C3 counterexample: `selectNote` assigns the selection
unconditionally, so selecting an id on the empty collection dangles —
after `select "a"` from the empty initial state, the selection is "a"
while the collection is empty. -/
theorem select_dangling_claim_false :
    (run stringify0 [Op.select ['a']]
      (initialState stringify0 parse0 none)).selectedId = some ['a'] ∧
    (run stringify0 [Op.select ['a']]
      (initialState stringify0 parse0 none)).notes = [] := by
  decide

/-- Claim C3 (amended): in every state reachable from the initial
loaded state by a sequence of UI-issuable operations — `select(id)`
only targeting ids present in the collection at that point, and
update patches never supplying an id — a non-null `selectedId` always
refers to a note present in the collection. -/
theorem selection_never_dangling (stringify : List Note → Str)
    (parse : Str → Option JsValue) (raw : Option Str) (ops : List Op)
    (hok : RunOk stringify (initialState stringify parse raw) ops) :
    SelOk (run stringify ops (initialState stringify parse raw)) :=
  run_preserves_SelOk stringify ops (initialState stringify parse raw)
    (initialState_SelOk stringify parse raw) hok

/-- Claim C3 witness: the invariant theorem applied to the concrete
run [create "a", select "a"] from the empty initial state. -/
theorem selection_never_dangling_witness :
    (run stringify0 demoOps (initialState stringify0 parse0 none)).selectedId
      = some ['a'] ∧
    ['a'] ∈ (run stringify0 demoOps
      (initialState stringify0 parse0 none)).notes.map Note.id := by
  have hsel : (['a'] : Str) ∈ (step stringify0 (Op.create ['a'] 0)
      (initialState stringify0 parse0 none)).notes.map Note.id := by decide
  have h := selection_never_dangling stringify0 parse0 none demoOps
    (RunOk.cons trivial (RunOk.cons hsel (RunOk.nil _)))
  exact ⟨by decide, h ['a'] (by decide)⟩

/-- Claim C6 counterexample: a `partialFields` argument may itself
supply `createdAt` or `id`, and the spread `{ ...n, ...partial }` then
overwrites them — on the concrete one-note state, a patch carrying
`id = "z"` and `createdAt = 999` changes both fields the claim calls
unchanged. -/
theorem updateSelected_claim_false :
    (updateSelected stringify0 patchBad 7 selState).notes.map Note.createdAt = [999] ∧
    selState.notes.map Note.createdAt = [0] ∧
    (updateSelected stringify0 patchBad 7 selState).notes.map Note.id = [['z']] ∧
    selState.notes.map Note.id = [['a']] := by
  decide

/-- Claim C6 (amended): for a patch that does not supply `id` or
`createdAt`, `updateSelected` leaves the matching note's id and
createdAt unchanged, leaves every field not supplied unchanged, sets
its updatedAt to the current time (hence `>=` its prior updatedAt
whenever the clock is not behind the stored timestamps), and leaves
every other note unchanged. -/
theorem updateSelected_spec (stringify : List Note → Str) (p : NotePatch)
    (now : Nat) (s : AppState) (i : Str)
    (hsel : s.selectedId = some i) (hne : i ≠ [])
    (hpid : p.id = none) (hpca : p.createdAt = none)
    (hclock : ∀ n ∈ s.notes, n.updatedAt ≤ now) :
    (updateSelected stringify p now s).selectedId = s.selectedId ∧
    (updateSelected stringify p now s).notes.length = s.notes.length ∧
    ∀ (j : Nat) (n0 : Note), s.notes[j]? = some n0 →
      (n0.id ≠ i → (updateSelected stringify p now s).notes[j]? = some n0) ∧
      (n0.id = i → ∃ n1, (updateSelected stringify p now s).notes[j]? = some n1 ∧
        n1.id = n0.id ∧ n1.createdAt = n0.createdAt ∧
        n1.updatedAt = now ∧ n0.updatedAt ≤ n1.updatedAt ∧
        (p.title = none → n1.title = n0.title) ∧
        (p.content = none → n1.content = n0.content) ∧
        (p.pinned = none → n1.pinned = n0.pinned) ∧
        (p.color = none → n1.color = n0.color)) := by
  have hie : i.isEmpty = false := List.isEmpty_eq_false.mpr hne
  have hnotes : (updateSelected stringify p now s).notes
      = s.notes.map fun n => if n.id = i then applyPatch n p now else n := by
    simp [updateSelected, hsel, hie, saveNotes]
  have hselu : (updateSelected stringify p now s).selectedId = s.selectedId := by
    simp [updateSelected, hsel, hie, saveNotes]
  refine ⟨hselu, ?_, ?_⟩
  · rw [hnotes, List.length_map]
  · intro j n0 hj
    constructor
    · intro hni
      rw [hnotes, List.getElem?_map, hj]
      simp [hni]
    · intro hni
      refine ⟨applyPatch n0 p now, ?_, ?_, ?_, rfl, ?_, ?_, ?_, ?_, ?_⟩
      · rw [hnotes, List.getElem?_map, hj]
        simp [hni]
      · simp [applyPatch, hpid]
      · simp [applyPatch, hpca]
      · exact hclock n0 (List.getElem?_mem hj)
      · intro h; simp [applyPatch, h]
      · intro h; simp [applyPatch, h]
      · intro h; simp [applyPatch, h]
      · intro h; simp [applyPatch, h]

/-- Claim C6 witness: the amended theorem applied on the concrete
one-note selected state with a title-only patch. -/
theorem updateSelected_spec_witness :
    (updateSelected stringify0 patchT 7 selState).selectedId = some ['a'] ∧
    (updateSelected stringify0 patchT 7 selState).notes.length = 1 := by
  have h := updateSelected_spec stringify0 patchT 7 selState ['a'] rfl
    (by decide) rfl rfl (by decide)
  exact ⟨h.1, h.2.1⟩

/-- The comparator is positive on an unpinned/pinned pair, in every
mode and for every collator. -/
theorem noteCmp_pin_pos (collator : Str → Str → Int) (sb : SortBy) (a b : Note)
    (ha : a.pinned = false) (hb : b.pinned = true) :
    ¬ noteCmp collator sb a b ≤ 0 := by
  cases sb <;> simp [noteCmp, jsNum, ha, hb]

/-- The comparator is non-positive on a pinned/unpinned pair, in every
mode and for every collator. -/
theorem noteCmp_pin_nonpos (collator : Str → Str → Int) (sb : SortBy) (a b : Note)
    (ha : a.pinned = true) (hb : b.pinned = false) :
    noteCmp collator sb a b ≤ 0 := by
  cases sb <;> simp [noteCmp, jsNum, ha, hb]

/-- Membership after insertion. -/
theorem mem_insertNote (le : Note → Note → Bool) (x w : Note) (l : List Note)
    (h : w ∈ insertNote le x l) : w = x ∨ w ∈ l := by
  induction l with
  | nil => simpa [insertNote] using h
  | cons y ys ih =>
    cases hle : le x y with
    | true =>
      rw [insertNote, if_pos hle] at h
      simpa using (List.mem_cons.mp h)
    | false =>
      rw [insertNote, if_neg (by simp [hle])] at h
      rcases List.mem_cons.mp h with rfl | h'
      · exact Or.inr (List.mem_cons_self _ _)
      · rcases ih h' with h'' | h''
        · exact Or.inl h''
        · exact Or.inr (List.mem_cons_of_mem _ h'')

/-- Inserting by the note comparator preserves the pinned-first shape,
for every collator and mode: an unpinned element never passes a pinned
one because the comparator's primary key decides those pairs. -/
theorem insertNote_PinFirst (collator : Str → Str → Int) (sb : SortBy)
    (x : Note) (l : List Note) (h : PinFirst l) :
    PinFirst (insertNote (fun a b => decide (noteCmp collator sb a b ≤ 0)) x l) := by
  induction l with
  | nil => simp [insertNote, PinFirst]
  | cons y ys ih =>
    rcases List.pairwise_cons.mp h with ⟨hy, hys⟩
    cases hle : decide (noteCmp collator sb x y ≤ 0) with
    | true =>
      rw [insertNote, if_pos hle]
      refine List.pairwise_cons.mpr ⟨?_, h⟩
      intro w hw hpw
      cases hxp : x.pinned with
      | true => rfl
      | false =>
        exfalso
        have hyp : y.pinned = true := by
          rcases List.mem_cons.mp hw with rfl | hw'
          · exact hpw
          · exact hy w hw' hpw
        exact noteCmp_pin_pos collator sb x y hxp hyp (of_decide_eq_true hle)
    | false =>
      rw [insertNote, if_neg (by simp [hle])]
      refine List.pairwise_cons.mpr ⟨?_, ih hys⟩
      intro w hw hpw
      rcases mem_insertNote _ x w ys hw with heq | hw'
      · cases hyp : y.pinned with
        | true => rfl
        | false =>
          exact absurd (noteCmp_pin_nonpos collator sb x y (heq ▸ hpw) hyp)
            (of_decide_eq_false hle)
      · exact hy w hw' hpw

/-- The sorted view has all pinned notes first, for every collator and
every mode. -/
theorem sortNotes_PinFirst (collator : Str → Str → Int) (sb : SortBy)
    (l : List Note) : PinFirst (sorted collator sb l) := by
  induction l with
  | nil => simp [sorted, sortNotes, PinFirst]
  | cons x xs ih =>
    simp only [sorted, sortNotes] at ih ⊢
    exact insertNote_PinFirst collator sb x _ ih

/-- Insertion permutes the consed list. -/
theorem insertNote_perm (le : Note → Note → Bool) (x : Note) (l : List Note) :
    (insertNote le x l).Perm (x :: l) := by
  induction l with
  | nil => exact List.Perm.refl _
  | cons y ys ih =>
    cases hle : le x y with
    | true =>
      rw [insertNote, if_pos hle]
    | false =>
      rw [insertNote, if_neg (by simp [hle])]
      exact (ih.cons y).trans (List.Perm.swap x y ys)

/-- The sort is a permutation of its input. -/
theorem sortNotes_perm (le : Note → Note → Bool) :
    ∀ l : List Note, (sortNotes le l).Perm l := by
  intro l
  induction l with
  | nil => exact List.Perm.refl _
  | cons x xs ih =>
    rw [sortNotes]
    exact (insertNote_perm le x (sortNotes le xs)).trans (ih.cons x)

/-- Claim C4: for every input list, every sort mode, and every
collator, every pinned note precedes every unpinned note in the sorted
output; in particular, in mode `updated` a pinned note updated at 50
precedes an unpinned note updated at 100. -/
theorem sorted_pin_first :
    (∀ (collator : Str → Str → Int) (sb : SortBy) (l : List Note) (i j : Nat)
      (ni nj : Note), i < j →
      (sorted collator sb l)[i]? = some ni →
      (sorted collator sb l)[j]? = some nj →
      nj.pinned = true → ni.pinned = true) ∧
    sorted collatorTrivial SortBy.updated [noteU100, noteP50] = [noteP50, noteU100] := by
  constructor
  · intro collator sb l i j ni nj hij hgi hgj hpj
    have hp : PinFirst (sorted collator sb l) := sortNotes_PinFirst collator sb l
    rcases List.getElem?_eq_some_iff.mp hgi with ⟨hi, hgi'⟩
    rcases List.getElem?_eq_some_iff.mp hgj with ⟨hj, hgj'⟩
    have hpg := List.pairwise_iff_get.mp hp ⟨i, hi⟩ ⟨j, hj⟩ (Fin.mk_lt_mk.mpr hij)
    simp only [List.get_eq_getElem] at hpg
    rw [hgi', hgj'] at hpg
    exact hpg hpj
  · decide

/-- Claim C4 witness: the pin-first theorem applied on the concrete
list [unpinned\@100, pinned\@50, pinned\@49] in mode `updated`, at
positions 0 < 1 of the sorted output. -/
theorem sorted_pin_first_witness :
    (0 : Nat) < 1 ∧
    (sorted collatorTrivial SortBy.updated demoSortList)[0]? = some noteP50 ∧
    (sorted collatorTrivial SortBy.updated demoSortList)[1]? = some noteP49 ∧
    noteP49.pinned = true ∧ noteP50.pinned = true :=
  ⟨by decide, by decide, by decide, by decide,
    sorted_pin_first.1 collatorTrivial SortBy.updated demoSortList 0 1 noteP50 noteP49
      (by decide) (by decide) (by decide) (by decide)⟩

/-- Every operation re-establishes the persistence invariant: either
it saves the new collection, or it leaves both the collection and the
storage cell untouched. -/
theorem step_preserves_Persisted (stringify : List Note → Str) (op : Op)
    (s : AppState) (h : Persisted stringify s) :
    Persisted stringify (step stringify op s) := by
  cases op with
  | create newId now =>
    simp [step, createNote, saveNotes, Persisted]
  | update p now =>
    cases hsel : s.selectedId with
    | none => simpa [step, updateSelected, hsel] using h
    | some i0 =>
      cases hie : i0.isEmpty with
      | true => simpa [step, updateSelected, hsel, hie] using h
      | false => simp [step, updateSelected, hsel, hie, saveNotes, Persisted]
  | deleteSel =>
    cases hsel : s.selectedId with
    | none => simpa [step, deleteSelected, hsel] using h
    | some i0 =>
      cases hie : i0.isEmpty with
      | true => simpa [step, deleteSelected, hsel, hie] using h
      | false =>
        cases hfi : findIndex (fun n => n.id = i0) s.notes with
        | none => simpa [step, deleteSelected, hsel, hie, hfi] using h
        | some idx => simp [step, deleteSelected, hsel, hie, hfi, saveNotes, Persisted]
  | togglePin idArg now =>
    cases idArg with
    | some j =>
      cases hie : j.isEmpty with
      | true => simpa [step, togglePin, hie] using h
      | false => simp [step, togglePin, hie, saveNotes, Persisted]
    | none =>
      cases hsel : s.selectedId with
      | none => simpa [step, togglePin, hsel] using h
      | some i0 =>
        cases hie : i0.isEmpty with
        | true => simpa [step, togglePin, hsel, hie] using h
        | false => simp [step, togglePin, hsel, hie, saveNotes, Persisted]
  | setColor c now =>
    cases hsel : s.selectedId with
    | none => simpa [step, setColor, hsel] using h
    | some i0 =>
      cases hie : i0.isEmpty with
      | true => simpa [step, setColor, hsel, hie] using h
      | false => simp [step, setColor, hsel, hie, saveNotes, Persisted]
  | select i =>
    simpa [step, selectNote, Persisted] using h

/-- The persistence invariant holds right after startup (the reactive
statement stores the loaded collection). -/
theorem initialState_Persisted (stringify : List Note → Str)
    (parse : Str → Option JsValue) (raw : Option Str) :
    Persisted stringify (initialState stringify parse raw) := rfl

/-- The persistence invariant is preserved along any run. -/
theorem run_preserves_Persisted (stringify : List Note → Str) :
    ∀ (ops : List Op) (s : AppState), Persisted stringify s →
      Persisted stringify (run stringify ops s) := by
  intro ops
  induction ops with
  | nil => intro s hs; exact hs
  | cons op ops ih =>
    intro s hs
    exact ih (step stringify op s) (step_preserves_Persisted stringify op s hs)

/-- Claim C8: after any sequence of create/update/delete operations
from the initial state, the storage cell holds exactly the
serialisation of the final in-memory collection, and re-loading that
persisted value — under the host JSON contract that parsing the
serialisation of the final collection yields it back as an array, and
that the serialisation is a nonempty string — returns the in-memory
collection. -/
theorem replay_roundtrip (stringify : List Note → Str)
    (parse : Str → Option JsValue) (raw : Option Str) (ops : List Op)
    (hcud : ∀ op ∈ ops, isCUD op = true)
    (hjson : parse (stringify (run stringify ops (initialState stringify parse raw)).notes)
      = some (JsValue.arr (run stringify ops (initialState stringify parse raw)).notes))
    (hne : stringify (run stringify ops (initialState stringify parse raw)).notes ≠ []) :
    (run stringify ops (initialState stringify parse raw)).storage
      = some (stringify (run stringify ops (initialState stringify parse raw)).notes) ∧
    loadNotes parse (run stringify ops (initialState stringify parse raw)).storage
      = (run stringify ops (initialState stringify parse raw)).notes := by
  have hp : Persisted stringify (run stringify ops (initialState stringify parse raw)) :=
    run_preserves_Persisted stringify ops _ (initialState_Persisted stringify parse raw)
  refine ⟨hp, ?_⟩
  rw [hp]
  have hie : (stringify (run stringify ops (initialState stringify parse raw)).notes).isEmpty
      = false := List.isEmpty_eq_false.mpr hne
  simp [loadNotes, hie, hjson]

/-- Claim C8 witness: the round-trip theorem applied to the concrete
run [create "a" at time 5] with a serialiser/parser pair satisfying
the JSON contract at the final collection. -/
theorem replay_roundtrip_witness :
    loadNotes parseA (run stringify0 [Op.create ['a'] 5]
      (initialState stringify0 parseA none)).storage
      = (run stringify0 [Op.create ['a'] 5] (initialState stringify0 parseA none)).notes :=
  (replay_roundtrip stringify0 parseA none [Op.create ['a'] 5]
    (by decide) (by decide) (by decide)).2

/-- Claim C10 witness: the theorem applied to the empty concrete
state, whose selection is null. -/
theorem no_selection_noop_witness :
    demoState.selectedId = none ∧
    (updateSelected stringify0 emptyPatch 0 demoState = demoState ∧
     deleteSelected stringify0 demoState = demoState ∧
     setColor stringify0 none 0 demoState = demoState ∧
     togglePin stringify0 none 0 demoState = demoState) :=
  ⟨rfl, no_selection_noop stringify0 emptyPatch none 0 demoState rfl⟩

/-- A prefix is an infix. -/
theorem pref_inf {a b : Str} (h : a <+: b) : a <:+: b := by
  rcases h with ⟨t, ht⟩
  exact ⟨[], t, by simpa using ht⟩

/-- A suffix is an infix. -/
theorem suff_inf {a b : Str} (h : a <:+ b) : a <:+: b := by
  rcases h with ⟨s, hs⟩
  exact ⟨s, [], by simpa using hs⟩

/-- The first element surviving `dropWhile` fails the predicate. -/
theorem head?_dropWhile_false (p : Char → Bool) (l : Str) (c : Char)
    (h : (l.dropWhile p).head? = some c) : p c = false := by
  induction l with
  | nil => simp [List.dropWhile] at h
  | cons x xs ih =>
    cases hx : p x with
    | true =>
      rw [List.dropWhile_cons, if_pos hx] at h
      exact ih h
    | false =>
      rw [List.dropWhile_cons, if_neg (by simp [hx]), List.head?_cons] at h
      have hxc := Option.some.inj h
      rw [← hxc]
      exact hx

/-- `dropWhile` removes elements only from the front, so a nonempty
result keeps the last element. -/
theorem getLast?_dropWhile_eq (p : Char → Bool) (u : Str) (c : Char)
    (h : (u.dropWhile p).getLast? = some c) : u.getLast? = some c := by
  obtain ⟨t, ht⟩ := (List.dropWhile_suffix p : u.dropWhile p <:+ u)
  calc u.getLast? = (t ++ u.dropWhile p).getLast? := by rw [ht]
    _ = (u.dropWhile p).getLast?.or t.getLast? := List.getLast?_append
    _ = some c := by rw [h]; rfl

/-- A trimmed string does not start with whitespace. -/
theorem jsTrim_head_not_ws (v : Str) (c : Char)
    (h : (jsTrim v).head? = some c) : Char.isWhitespace c = false := by
  rw [jsTrim, List.head?_reverse] at h
  have h2 := getLast?_dropWhile_eq _ _ _ h
  rw [List.getLast?_reverse] at h2
  exact head?_dropWhile_false _ _ _ h2

/-- A trimmed string does not end with whitespace. -/
theorem jsTrim_getLast_not_ws (v : Str) (c : Char)
    (h : (jsTrim v).getLast? = some c) : Char.isWhitespace c = false := by
  rw [jsTrim, List.getLast?_reverse] at h
  exact head?_dropWhile_false _ _ _ h

/-- An occurrence of a pattern whose first element fails the predicate
survives a front `dropWhile` of the haystack. -/
theorem inf_dropWhile_of_head (p : Char → Bool) (w l : Str)
    (hw : ∀ c, w.head? = some c → p c = false) (h : w <:+: l) :
    w <:+: l.dropWhile p := by
  cases w with
  | nil => exact List.nil_infix
  | cons c w' =>
    have hc : p c = false := hw c rfl
    clear hw
    revert h
    induction l with
    | nil =>
      intro h
      rcases h with ⟨s, t, hst⟩
      simp at hst
    | cons x xs ih =>
      intro h
      cases hx : p x with
      | false =>
        rw [List.dropWhile_cons, if_neg (by simp [hx])]
        exact h
      | true =>
        rw [List.dropWhile_cons, if_pos hx]
        apply ih
        rcases List.infix_cons_iff.mp h with hpre | hinf
        · exfalso
          have hcx : c = x := (List.cons_prefix_cons.mp hpre).1
          rw [← hcx] at hx
          simp [hc] at hx
        · exact hinf

/-- An occurrence of a pattern whose last element fails the predicate
survives a back `dropWhile` of the haystack. -/
theorem inf_trimR_of_getLast (p : Char → Bool) (w l : Str)
    (hw : ∀ c, w.getLast? = some c → p c = false) (h : w <:+: l) :
    w <:+: (l.reverse.dropWhile p).reverse := by
  have h1 : w.reverse <:+: l.reverse := List.reverse_infix.mpr h
  have hw' : ∀ c, w.reverse.head? = some c → p c = false := by
    intro c hc
    exact hw c (by rwa [List.head?_reverse] at hc)
  have h2 := inf_dropWhile_of_head p w.reverse l.reverse hw' h1
  exact List.reverse_infix.mp (by rwa [List.reverse_reverse])

/-- The trim of a string occurs in the string. -/
theorem jsTrim_inf (l : Str) : jsTrim l <:+: l := by
  have h1 : l.dropWhile Char.isWhitespace <:+ l := List.dropWhile_suffix _
  have h2 : (l.dropWhile Char.isWhitespace).reverse.dropWhile Char.isWhitespace
      <:+ (l.dropWhile Char.isWhitespace).reverse := List.dropWhile_suffix _
  have h3 : ((l.dropWhile Char.isWhitespace).reverse.dropWhile Char.isWhitespace).reverse
      <+: l.dropWhile Char.isWhitespace :=
    List.reverse_suffix.mp (by rwa [List.reverse_reverse])
  exact (pref_inf h3).trans (suff_inf h1)

/-- A trimmed pattern occurs in a string exactly when it occurs in the
string's trim: trimming only removes whitespace at the two ends, and
the pattern neither starts nor ends with whitespace. -/
theorem inf_jsTrim_iff (v l : Str) : jsTrim v <:+: l ↔ jsTrim v <:+: jsTrim l := by
  constructor
  · intro h
    have h1 : jsTrim v <:+: l.dropWhile Char.isWhitespace :=
      inf_dropWhile_of_head _ _ _ (fun c hc => jsTrim_head_not_ws v c hc) h
    exact inf_trimR_of_getLast _ _ _ (fun c hc => jsTrim_getLast_not_ws v c hc) h1
  · intro h
    exact h.trans (jsTrim_inf l)

/-- Claim C5: a note matches a query exactly when the query is empty
or the lower-cased, whitespace-trimmed query occurs in the lower-cased
title or in the lower-cased content; and with the pinned-only toggle
active, the derived view keeps exactly the matching notes that are
pinned (logical AND of the two filters). -/
theorem matches_spec :
    (∀ (n : Note) (q : Str), matchesNote n q = true ↔
      (q = [] ∨ normalize q <:+: jsToLower n.title ∨
        normalize q <:+: jsToLower n.content)) ∧
    (∀ (collator : Str → Str → Int) (sb : SortBy) (q : Str) (po : Bool)
      (ns : List Note) (n : Note),
      n ∈ filteredView collator sb q po ns ↔
        (n ∈ ns ∧ matchesNote n q = true ∧ (po = true → n.pinned = true))) := by
  constructor
  · intro n q
    cases hq : q.isEmpty with
    | true =>
      have hqe : q = [] := List.isEmpty_iff.mp hq
      subst hqe
      simp [matchesNote]
    | false =>
      have hqne : q ≠ [] := List.isEmpty_eq_false.mp hq
      simp only [matchesNote, hq, Bool.false_eq_true, if_false, includes,
        Bool.or_eq_true, decide_eq_true_eq]
      constructor
      · intro h
        rcases h with h | h
        · exact Or.inr (Or.inl ((inf_jsTrim_iff (jsToLower q) (jsToLower n.title)).mpr h))
        · exact Or.inr (Or.inr ((inf_jsTrim_iff (jsToLower q) (jsToLower n.content)).mpr h))
      · intro h
        rcases h with h | h | h
        · exact absurd h hqne
        · exact Or.inl ((inf_jsTrim_iff (jsToLower q) (jsToLower n.title)).mp h)
        · exact Or.inr ((inf_jsTrim_iff (jsToLower q) (jsToLower n.content)).mp h)
  · intro collator sb q po ns n
    simp only [filteredView, sorted]
    rw [(sortNotes_perm (fun a b => decide (noteCmp collator sb a b ≤ 0))
      (ns.filter fun n => matchesNote n q && (!po || n.pinned))).mem_iff,
      List.mem_filter]
    apply and_congr Iff.rfl
    cases po <;> simp

end NotesApp
